import Mathlib

/-!
Verification of the seller-apis repository (src/seller.py and src/market.py):
a shallow embedding in Lean 4 of the pure data-transformation layer
(price normalisation, quantity bucketing, stock/price payload construction,
list chunking) and of the orchestrator control flow, together with theorems
settling the specification claims.

Conventions of the embedding:
* Python strings are `String`, Python lists are `List`.
* Python `int(...)` applied to a string is `pyInt : String → Option Int`;
  `none` models a raised `ValueError`.
* A Python function that can raise mid-way is `Option`-valued; a function
  whose only failure is the explicit `range()` step-zero `ValueError` is
  `Except DivideError`-valued.
* In-place mutation of the `offer_ids` list (`list.remove`) is modelled by
  threading the list through the recursion and returning its final value.
-/

/-- Decimal value of a list of ASCII digit characters, most significant first
(the accumulator pass performed by Python `int` over the digit characters). -/
def pyDigits (ds : List Char) : Nat :=
  ds.foldl (fun n c => 10 * n + (c.toNat - 48)) 0

/-- Leading and trailing whitespace removal on the character list of a string,
as Python `int` applies to its argument before parsing. -/
def pyStrip (s : String) : List Char :=
  ((s.data.dropWhile Char.isWhitespace).reverse.dropWhile Char.isWhitespace).reverse

/-- Model of the Python built-in `int(s)` for a string argument `s`:
optional surrounding whitespace, an optional `+`/`-` sign, then a non-empty
run of ASCII digits; any other shape raises `ValueError`, modelled as `none`.
(Underscore digit-grouping and non-ASCII unicode digits, which CPython also
accepts, do not occur in this code base and are not modelled.) -/
def pyInt (s : String) : Option Int :=
  match pyStrip s with
  | [] => none
  | c :: ds =>
    if c = '-' then
      if !ds.isEmpty && ds.all Char.isDigit then some (-(pyDigits ds : Int)) else none
    else if c = '+' then
      if !ds.isEmpty && ds.all Char.isDigit then some ((pyDigits ds : Int)) else none
    else
      if (c :: ds).all Char.isDigit then some ((pyDigits (c :: ds) : Int)) else none

/-- Embedding of `seller.price_conversion`: Python
`re.sub("[^0-9]", "", price.split(".")[0])` — keep the characters before the
first literal `.` (that prefix is exactly `split(".")[0]`), then remove every
character that is not an ASCII digit (`Char.isDigit` is the ASCII test). -/
def price_conversion (price : String) : String :=
  String.mk ((price.data.takeWhile (fun c => c != '.')).filter Char.isDigit)

/-- Modelled from the spec's words for claim C3: "the substring before the
first literal period". -/
def specBeforeFirstPeriod (s : String) : String :=
  String.mk (s.data.takeWhile (fun c => c != '.'))

/-- Modelled from the spec's words for claim C3: "every non-ASCII-digit
character removed". -/
def specStripNonAsciiDigits (s : String) : String :=
  String.mk (s.data.filter (fun c => '0' ≤ c && c ≤ '9'))

/-- The spec's sample input `5'990.00` (the apostrophe is character 39). -/
def samplePriceRaw : String :=
  String.mk ['5', Char.ofNat 39, '9', '9', '0', '.', '0', '0']

/-- Error raised by `divide` when the chunk size is zero: Python's
`range(0, len(lst), 0)` raises `ValueError: range() arg 3 must not be zero`,
a ValueError (invalid argument), not an arithmetic fault such as
`ZeroDivisionError`. -/
inductive DivideError : Type where
  | invalidArgument : DivideError
deriving DecidableEq

/-- The successive slices `lst[i : i + n]` for `i = 0, n, 2n, ...` produced by
the generator body of `seller.divide`, written as structural recursion on the
remaining suffix (each loop step consumes the next `n` elements). The `n = 0`
branch is unreachable: `divide` rejects `n = 0` before calling this. -/
def chunksGo : Nat → List α → List (List α)
  | _, [] => []
  | 0, _ :: _ => []
  | n + 1, x :: xs => (x :: xs).take (n + 1) :: chunksGo (n + 1) ((x :: xs).drop (n + 1))
termination_by _ l => l.length
decreasing_by
  simp only [List.length_drop, List.length_cons]
  omega

/-- Embedding of `seller.divide(lst, n)`, consumed eagerly (every call site
immediately wraps it in `list(...)`): `for i in range(0, len(lst), n):
yield lst[i : i + n]`, where `range` with step `0` raises `ValueError`. -/
def divide (lst : List α) (n : Nat) : Except DivideError (List (List α)) :=
  if n = 0 then Except.error DivideError.invalidArgument
  else Except.ok (chunksGo n lst)

theorem chunksGo_nil (n : Nat) : chunksGo n ([] : List α) = [] := by
  rw [chunksGo]

theorem chunksGo_cons {lst : List α} (hl : lst ≠ []) {n : Nat} (hn : n ≠ 0) :
    chunksGo n lst = lst.take n :: chunksGo n (lst.drop n) := by
  cases lst with
  | nil => exact absurd rfl hl
  | cons x xs =>
    cases n with
    | zero => exact absurd rfl hn
    | succ m => rw [chunksGo]

theorem chunksGo_flatten {α : Type} (n : Nat) (hn : n ≠ 0) (lst : List α) :
    (chunksGo n lst).flatten = lst := by
  have H : ∀ k (l : List α), l.length ≤ k → (chunksGo n l).flatten = l := by
    intro k
    induction k with
    | zero =>
      intro l hl
      have hnil : l = [] := List.eq_nil_of_length_eq_zero (Nat.le_zero.mp hl)
      subst hnil
      rw [chunksGo_nil]
      rfl
    | succ k ih =>
      intro l hl
      by_cases hnil : l = []
      · subst hnil
        rw [chunksGo_nil]
        rfl
      · rw [chunksGo_cons hnil hn, List.flatten_cons, ih (l.drop n) ?hlen,
          List.take_append_drop]
        case hlen =>
          have h1 : 0 < l.length := List.length_pos.mpr hnil
          have h2 : 0 < n := Nat.pos_of_ne_zero hn
          simp only [List.length_drop]
          omega
  exact H lst.length lst le_rfl

theorem chunksGo_length_le {α : Type} (n : Nat) (hn : n ≠ 0) (lst : List α) :
    ∀ c ∈ chunksGo n lst, c.length ≤ n := by
  have H : ∀ k (l : List α), l.length ≤ k → ∀ c ∈ chunksGo n l, c.length ≤ n := by
    intro k
    induction k with
    | zero =>
      intro l hl c hc
      have hnil : l = [] := List.eq_nil_of_length_eq_zero (Nat.le_zero.mp hl)
      subst hnil
      rw [chunksGo_nil] at hc
      simp at hc
    | succ k ih =>
      intro l hl c hc
      by_cases hnil : l = []
      · subst hnil
        rw [chunksGo_nil] at hc
        simp at hc
      · rw [chunksGo_cons hnil hn] at hc
        rcases List.mem_cons.mp hc with h | h
        · subst h
          simp only [List.length_take]
          omega
        · refine ih (l.drop n) ?_ c h
          have h1 : 0 < l.length := List.length_pos.mpr hnil
          have h2 : 0 < n := Nat.pos_of_ne_zero hn
          simp only [List.length_drop]
          omega
  exact H lst.length lst le_rfl

theorem chunksGo_getD_length {α : Type} (n : Nat) (hn : n ≠ 0) (lst : List α) :
    ∀ i, i + 1 < (chunksGo n lst).length → ((chunksGo n lst).getD i []).length = n := by
  have H : ∀ k (l : List α), l.length ≤ k →
      ∀ i, i + 1 < (chunksGo n l).length → ((chunksGo n l).getD i []).length = n := by
    intro k
    induction k with
    | zero =>
      intro l hl i hi
      have hnil : l = [] := List.eq_nil_of_length_eq_zero (Nat.le_zero.mp hl)
      subst hnil
      rw [chunksGo_nil] at hi
      simp at hi
    | succ k ih =>
      intro l hl i hi
      by_cases hnil : l = []
      · subst hnil
        rw [chunksGo_nil] at hi
        simp at hi
      · rw [chunksGo_cons hnil hn] at hi ⊢
        cases i with
        | zero =>
          have htail : chunksGo n (l.drop n) ≠ [] := by
            intro h0
            rw [h0] at hi
            simp at hi
          have hd : l.drop n ≠ [] := by
            intro h0
            exact htail (by rw [h0, chunksGo_nil])
          have hlen : n < l.length := by
            have := List.length_pos.mpr hd
            simp only [List.length_drop] at this
            omega
          simp only [List.getD_cons_zero, List.length_take]
          omega
        | succ j =>
          simp only [List.getD_cons_succ]
          refine ih (l.drop n) ?_ j ?_
          · have h1 : 0 < l.length := List.length_pos.mpr hnil
            have h2 : 0 < n := Nat.pos_of_ne_zero hn
            simp only [List.length_drop]
            omega
          · simpa using hi
  exact H lst.length lst le_rfl

/-- Claim C3: for every input string, `price_conversion` returns the substring
before the first literal period with every non-ASCII-digit character removed;
in particular it maps `5'990.00` to `5990` and `5.990.00` to `5`. -/
theorem price_conversion_first_period_digits :
    (∀ s : String, price_conversion s = specStripNonAsciiDigits (specBeforeFirstPeriod s)) ∧
    price_conversion samplePriceRaw = "5990" ∧
    price_conversion "5.990.00" = "5" :=
  ⟨fun _ => rfl, by decide, by decide⟩

/-- Claim C5: for every list and chunk size `n > 0`, `divide` succeeds, its
chunks concatenate to the input in order, every chunk has length at most `n`,
and every chunk except possibly the last has length exactly `n`. -/
theorem divide_chunk_spec {α : Type} (lst : List α) (n : Nat) (hn : 0 < n) :
    ∃ cs, divide lst n = Except.ok cs ∧ cs.flatten = lst ∧
      (∀ c ∈ cs, c.length ≤ n) ∧
      (∀ i, i + 1 < cs.length → (cs.getD i []).length = n) := by
  refine ⟨chunksGo n lst, ?_, chunksGo_flatten n hn.ne' lst,
    chunksGo_length_le n hn.ne' lst, chunksGo_getD_length n hn.ne' lst⟩
  rw [divide, if_neg hn.ne']

/-- Witness for claim C5 at the concrete input `[1,2,3,4,5]` with `n = 2`. -/
theorem divide_chunk_spec_witness :
    ∃ cs, divide ([1, 2, 3, 4, 5] : List Nat) 2 = Except.ok cs ∧
      cs.flatten = [1, 2, 3, 4, 5] ∧
      (∀ c ∈ cs, c.length ≤ 2) ∧
      (∀ i, i + 1 < cs.length → (cs.getD i []).length = 2) :=
  divide_chunk_spec [1, 2, 3, 4, 5] 2 (by decide)

/-- Claim C6: for every list, `divide` with chunk size `0` fails with the
explicit invalid-argument error (Python's `ValueError` from `range`), not an
arithmetic fault. -/
theorem divide_zero_invalid_argument {α : Type} (lst : List α) :
    divide lst 0 = Except.error DivideError.invalidArgument := rfl

/-- Supplier spreadsheet row as consumed by the payload builders: the fields
`Код` (product code), `Количество` (quantity string) and `Цена` (price
string), transliterated to `kod`, `kolichestvo`, `tsena`. The code reads each
through `str(...)`, so the fields are modelled as the resulting strings. -/
structure Watch : Type where
  kod : String
  kolichestvo : String
  tsena : String
deriving DecidableEq

/-- One element of the list built by `seller.create_stocks`:
`{"offer_id": ..., "stock": ...}`. The stock is an `Int` because Python
`int(...)` can produce negative values. -/
structure StockUpdate : Type where
  offer_id : String
  stock : Int
deriving DecidableEq

/-- One element of the list built by `seller.create_prices`; field order and
constant fields as in the source dictionary literal. The `price` field holds
the string returned by `price_conversion`. -/
structure OzonPrice : Type where
  auto_action_enabled : String
  currency_code : String
  offer_id : String
  old_price : String
  price : String
deriving DecidableEq

/-- The quantity-bucketing computed inside both `create_stocks` loops:
`">10"` maps to 100, `"1"` maps to 0, anything else is passed to `int(...)`
(`none` models the `ValueError` raised on an unparsable string). -/
def bucketCount (q : String) : Option Int :=
  if q = ">10" then some 100
  else if q = "1" then some 0
  else pyInt q

/-- The first loop of `seller.create_stocks` (and, shape of the elements
aside, of `market.create_stocks`): for each row whose code is in `offer_ids`,
append a stock entry and remove the code from `offer_ids` in place
(`list.remove` deletes the first occurrence, i.e. `List.erase`). Returns the
entries built so far together with the final state of `offer_ids`. -/
def createStocksLoop : List Watch → List String → Option (List StockUpdate × List String)
  | [], offer_ids => some ([], offer_ids)
  | w :: rest, offer_ids =>
    if w.kod ∈ offer_ids then
      match bucketCount w.kolichestvo with
      | none => none
      | some st =>
        match createStocksLoop rest (offer_ids.erase w.kod) with
        | none => none
        | some (ss, rem) => some (⟨w.kod, st⟩ :: ss, rem)
    else createStocksLoop rest offer_ids

/-- Embedding of `seller.create_stocks(watch_remnants, offer_ids)`: the row
loop above followed by the zero-fill loop appending `{"offer_id": oid,
"stock": 0}` for every identifier still in `offer_ids`. Returns the stock
list together with the final (mutated) `offer_ids`. -/
def create_stocks (rows : List Watch) (offer_ids : List String) :
    Option (List StockUpdate × List String) :=
  match createStocksLoop rows offer_ids with
  | none => none
  | some (ss, rem) => some (ss ++ rem.map (fun oid => ⟨oid, 0⟩), rem)

/-- Embedding of `seller.create_prices(watch_remnants, offer_ids)`: for each
row whose code is in `offer_ids`, append the price dictionary (constants
`"UNKNOWN"`, `"RUB"`, `"0"` and the converted price). The loop only reads
`offer_ids`, never removes from it; the unchanged list is threaded through
and returned so that the absence of mutation is part of the statement. -/
def createPricesLoop : List Watch → List String → List OzonPrice × List String
  | [], offer_ids => ([], offer_ids)
  | w :: rest, offer_ids =>
    if w.kod ∈ offer_ids then
      match createPricesLoop rest offer_ids with
      | (ps, ids2) => (⟨"UNKNOWN", "RUB", w.kod, "0", price_conversion w.tsena⟩ :: ps, ids2)
    else createPricesLoop rest offer_ids

/-- One element of the list built by `market.create_stocks`: the dictionary
`{"sku": ..., "warehouseId": ..., "items": [{"count": ..., "type": "FIT",
"updatedAt": date}]}` with its single-element `items` list flattened into the
`count`, `itemType` and `updatedAt` fields. -/
structure MarketStock : Type where
  sku : String
  warehouseId : String
  count : Int
  itemType : String
  updatedAt : String
deriving DecidableEq

/-- One element of the list built by `market.create_prices`:
`{"id": ..., "price": {"value": ..., "currencyId": "RUR"}}`. -/
structure MarketPrice : Type where
  id : String
  value : Int
  currencyId : String
deriving DecidableEq

/-- The row loop of `market.create_stocks`: same matching, bucketing and
in-place removal as the seller variant, but each entry carries the warehouse
identifier and the timestamp string `date` computed once per call from
`datetime.datetime.utcnow()` (here a parameter: the clock reading). -/
def marketStocksLoop (wid date : String) :
    List Watch → List String → Option (List MarketStock × List String)
  | [], offer_ids => some ([], offer_ids)
  | w :: rest, offer_ids =>
    if w.kod ∈ offer_ids then
      match bucketCount w.kolichestvo with
      | none => none
      | some st =>
        match marketStocksLoop wid date rest (offer_ids.erase w.kod) with
        | none => none
        | some (ss, rem) => some (⟨w.kod, wid, st, "FIT", date⟩ :: ss, rem)
    else marketStocksLoop wid date rest offer_ids

/-- Embedding of `market.create_stocks(watch_remnants, offer_ids,
warehouse_id)` with the `utcnow` timestamp passed in as `date`: the row loop
followed by the zero-fill loop. -/
def market_create_stocks (rows : List Watch) (offer_ids : List String)
    (wid date : String) : Option (List MarketStock × List String) :=
  match marketStocksLoop wid date rows offer_ids with
  | none => none
  | some (ss, rem) => some (ss ++ rem.map (fun oid => ⟨oid, wid, 0, "FIT", date⟩), rem)

/-- Embedding of `market.create_prices(watch_remnants, offer_ids)`: for each
row whose code is in `offer_ids`, append a price entry whose value is
`int(price_conversion(...))` — `none` models the `ValueError` raised when the
converted string is empty. `offer_ids` is only read. -/
def market_create_prices : List Watch → List String → Option (List MarketPrice)
  | [], _ => some []
  | w :: rest, offer_ids =>
    if w.kod ∈ offer_ids then
      match pyInt (price_conversion w.tsena) with
      | none => none
      | some v =>
        match market_create_prices rest offer_ids with
        | none => none
        | some ps => some (⟨w.kod, v, "RUR"⟩ :: ps)
    else market_create_prices rest offer_ids

/-- Embedding of the payload-building part of `seller.main` (source lines
468-477): `create_stocks` is called first and removes every matched
identifier from `offer_ids` in place, then `create_prices` is called with
that same, now mutated, list. -/
def seller_main_pipeline (rows : List Watch) (offer_ids : List String) :
    Option (List StockUpdate × List OzonPrice) :=
  match create_stocks rows offer_ids with
  | none => none
  | some (stocks, rem) => some (stocks, (createPricesLoop rows rem).1)

/-- The stock batches `seller.main` passes to `update_stocks`:
`divide(stocks, 100)`. -/
def seller_main_stock_batches (rows : List Watch) (offer_ids : List String) :
    Option (Except DivideError (List (List StockUpdate))) :=
  (create_stocks rows offer_ids).map (fun p => divide p.1 100)

/-- The price batches `seller.main` passes to `update_price`:
`divide(prices, 900)`, where `prices` is built from the mutated
`offer_ids`. -/
def seller_main_price_batches (rows : List Watch) (offer_ids : List String) :
    Option (Except DivideError (List (List OzonPrice))) :=
  (create_stocks rows offer_ids).map
    (fun p => divide (createPricesLoop rows p.2).1 900)

/-- The stock batches `seller.upload_stocks` passes to `update_stocks`:
`divide(stocks, 100)` over a freshly fetched `offer_ids`. -/
def seller_upload_stocks_batches (rows : List Watch) (fresh_ids : List String) :
    Option (Except DivideError (List (List StockUpdate))) :=
  (create_stocks rows fresh_ids).map (fun p => divide p.1 100)

/-- The price batches `seller.upload_prices` passes to `update_price`:
`divide(prices, 1000)` (source line 402 chunks by 1000, not 900) over a
freshly fetched `offer_ids`. -/
def seller_upload_prices_batches (rows : List Watch) (fresh_ids : List String) :
    Except DivideError (List (List OzonPrice)) :=
  divide (createPricesLoop rows fresh_ids).1 1000

/-- The stock batches `market.upload_stocks` (and, inlined, `market.main`)
passes to `update_stocks`: `divide(stocks, 2000)`. -/
def market_upload_stocks_batches (rows : List Watch) (fresh_ids : List String)
    (wid date : String) : Option (Except DivideError (List (List MarketStock))) :=
  (market_create_stocks rows fresh_ids wid date).map (fun p => divide p.1 2000)

/-- The price batches `market.upload_prices` passes to `update_price`:
`divide(prices, 500)`. -/
def market_upload_prices_batches (rows : List Watch) (fresh_ids : List String) :
    Option (Except DivideError (List (List MarketPrice))) :=
  (market_create_prices rows fresh_ids).map (fun ps => divide ps 500)

/-- The exception classes distinguished by the orchestrators' `except`
clauses: `requests.exceptions.ReadTimeout`,
`requests.exceptions.ConnectionError`, and any other `Exception`. -/
inductive PyError : Type where
  | readTimeout : PyError
  | connectionError : PyError
  | other : PyError
deriving DecidableEq

/-- The outcomes of the network-facing steps of one `market.main` run, given
as an environment: what the supplier-feed download, the two `get_offer_ids`
calls and the two stock-push loops would return or raise. -/
structure MarketEnv : Type where
  download : Except PyError (List Watch)
  offersFbs : Except PyError (List String)
  offersDbs : Except PyError (List String)
  pushStocksFbs : Except PyError Unit
  pushStocksDbs : Except PyError Unit

/-- Observable outcome of one `market.main` run: an error that escaped `main`
uncaught, an error caught and printed by one of the three `except` clauses,
and whether execution ever reached the DBS campaign's first step. -/
structure MainOutcome : Type where
  uncaught : Option PyError
  caught : Option PyError
  dbsAttempted : Bool
deriving DecidableEq

/-- The single `try` body of `market.main` (source lines 416-433): the FBS
campaign's steps followed by the DBS campaign's steps, sequenced in one
block. Returns whether the DBS campaign was reached and the first error
raised, if any. `upload_prices(...)` is called without `await` on both
campaigns: it only creates a coroutine object that is never run, so that
step can neither push anything nor raise. -/
def marketTryBody (env : MarketEnv) (rows : List Watch) (wFbs wDbs date : String) :
    Bool × Option PyError :=
  match env.offersFbs with
  | Except.error e => (false, some e)
  | Except.ok idsF =>
    match market_create_stocks rows idsF wFbs date with
    | none => (false, some PyError.other)
    | some _ =>
      match env.pushStocksFbs with
      | Except.error e => (false, some e)
      | Except.ok _ =>
        match env.offersDbs with
        | Except.error e => (true, some e)
        | Except.ok idsD =>
          match market_create_stocks rows idsD wDbs date with
          | none => (true, some PyError.other)
          | some _ =>
            match env.pushStocksDbs with
            | Except.error e => (true, some e)
            | Except.ok _ => (true, none)

/-- Embedding of the control flow of `market.main` (source lines 408-439):
`watch_remnants = download_stock()` runs before, and outside of, the `try`
block, so an error raised there escapes `main` uncaught; every error raised
inside the `try` body is caught by one of the three `except` clauses. -/
def market_main (env : MarketEnv) (wFbs wDbs date : String) : MainOutcome :=
  match env.download with
  | Except.error e => ⟨some e, none, false⟩
  | Except.ok rows =>
    match marketTryBody env rows wFbs wDbs date with
    | (att, err) => ⟨none, err, att⟩

/-- Environment in which the FBS `get_offer_ids` call raises `ReadTimeout`
and every other step would succeed. -/
def envFbsTimeout : MarketEnv :=
  ⟨Except.ok [], Except.error PyError.readTimeout, Except.ok [],
    Except.ok (), Except.ok ()⟩

/-- Environment in which the supplier-feed download raises a connection
error and every other step would succeed. -/
def envDownloadFail : MarketEnv :=
  ⟨Except.error PyError.connectionError, Except.ok [], Except.ok [],
    Except.ok (), Except.ok ()⟩

theorem createStocksLoop_perm :
    ∀ (rows : List Watch) (ids : List String) (ss : List StockUpdate) (rem : List String),
      createStocksLoop rows ids = some (ss, rem) →
      (ss.map StockUpdate.offer_id ++ rem).Perm ids := by
  intro rows
  induction rows with
  | nil =>
    intro ids ss rem h
    simp only [createStocksLoop, Option.some.injEq, Prod.mk.injEq] at h
    rw [← h.1, ← h.2]
    simp
  | cons w rest ih =>
    intro ids ss rem h
    by_cases hm : w.kod ∈ ids
    · rw [createStocksLoop, if_pos hm] at h
      cases hb : bucketCount w.kolichestvo with
      | none => rw [hb] at h; cases h
      | some st =>
        rw [hb] at h
        cases hrec : createStocksLoop rest (ids.erase w.kod) with
        | none => rw [hrec] at h; cases h
        | some p =>
          obtain ⟨ss2, rem2⟩ := p
          rw [hrec] at h
          simp only [Option.some.injEq, Prod.mk.injEq] at h
          rw [← h.1, ← h.2]
          have hperm := ih (ids.erase w.kod) ss2 rem2 hrec
          simp only [List.map_cons, List.cons_append]
          exact (hperm.cons w.kod).trans (List.perm_cons_erase hm).symm
    · rw [createStocksLoop, if_neg hm] at h
      exact ih ids ss rem h

theorem createStocksLoop_rem_sublist :
    ∀ (rows : List Watch) (ids : List String) (ss : List StockUpdate) (rem : List String),
      createStocksLoop rows ids = some (ss, rem) → List.Sublist rem ids := by
  intro rows
  induction rows with
  | nil =>
    intro ids ss rem h
    simp only [createStocksLoop, Option.some.injEq, Prod.mk.injEq] at h
    rw [← h.2]
  | cons w rest ih =>
    intro ids ss rem h
    by_cases hm : w.kod ∈ ids
    · rw [createStocksLoop, if_pos hm] at h
      cases hb : bucketCount w.kolichestvo with
      | none => rw [hb] at h; cases h
      | some st =>
        rw [hb] at h
        cases hrec : createStocksLoop rest (ids.erase w.kod) with
        | none => rw [hrec] at h; cases h
        | some p =>
          obtain ⟨ss2, rem2⟩ := p
          rw [hrec] at h
          simp only [Option.some.injEq, Prod.mk.injEq] at h
          rw [← h.2]
          exact (ih (ids.erase w.kod) ss2 rem2 hrec).trans (List.erase_sublist w.kod ids)
    · rw [createStocksLoop, if_neg hm] at h
      exact ih ids ss rem h

theorem createStocksLoop_matched_sublist :
    ∀ (rows : List Watch) (ids : List String) (ss : List StockUpdate) (rem : List String),
      createStocksLoop rows ids = some (ss, rem) →
      List.Sublist (ss.map StockUpdate.offer_id) (rows.map Watch.kod) := by
  intro rows
  induction rows with
  | nil =>
    intro ids ss rem h
    simp only [createStocksLoop, Option.some.injEq, Prod.mk.injEq] at h
    rw [← h.1]
    simp
  | cons w rest ih =>
    intro ids ss rem h
    by_cases hm : w.kod ∈ ids
    · rw [createStocksLoop, if_pos hm] at h
      cases hb : bucketCount w.kolichestvo with
      | none => rw [hb] at h; cases h
      | some st =>
        rw [hb] at h
        cases hrec : createStocksLoop rest (ids.erase w.kod) with
        | none => rw [hrec] at h; cases h
        | some p =>
          obtain ⟨ss2, rem2⟩ := p
          rw [hrec] at h
          simp only [Option.some.injEq, Prod.mk.injEq] at h
          rw [← h.1]
          simp only [List.map_cons]
          exact (ih (ids.erase w.kod) ss2 rem2 hrec).cons₂ w.kod
    · rw [createStocksLoop, if_neg hm] at h
      exact (ih ids ss rem h).cons w.kod

theorem createStocksLoop_matched_spec :
    ∀ (rows : List Watch) (ids : List String) (ss : List StockUpdate) (rem : List String),
      createStocksLoop rows ids = some (ss, rem) →
      ∀ e ∈ ss, ∃ w ∈ rows, e.offer_id = w.kod ∧ bucketCount w.kolichestvo = some e.stock := by
  intro rows
  induction rows with
  | nil =>
    intro ids ss rem h
    simp only [createStocksLoop, Option.some.injEq, Prod.mk.injEq] at h
    rw [← h.1]
    simp
  | cons w rest ih =>
    intro ids ss rem h
    by_cases hm : w.kod ∈ ids
    · rw [createStocksLoop, if_pos hm] at h
      cases hb : bucketCount w.kolichestvo with
      | none => rw [hb] at h; cases h
      | some st =>
        rw [hb] at h
        cases hrec : createStocksLoop rest (ids.erase w.kod) with
        | none => rw [hrec] at h; cases h
        | some p =>
          obtain ⟨ss2, rem2⟩ := p
          rw [hrec] at h
          simp only [Option.some.injEq, Prod.mk.injEq] at h
          rw [← h.1]
          intro e he
          rcases List.mem_cons.mp he with he | he
          · exact ⟨w, List.mem_cons_self w rest, by rw [he], by rw [he, hb]⟩
          · obtain ⟨w2, hw2, h1, h2⟩ := ih (ids.erase w.kod) ss2 rem2 hrec e he
            exact ⟨w2, List.mem_cons_of_mem w hw2, h1, h2⟩
    · rw [createStocksLoop, if_neg hm] at h
      intro e he
      obtain ⟨w2, hw2, h1, h2⟩ := ih ids ss rem h e he
      exact ⟨w2, List.mem_cons_of_mem w hw2, h1, h2⟩

theorem createStocksLoop_rem_mem :
    ∀ (rows : List Watch) (ids : List String) (ss : List StockUpdate) (rem : List String),
      ids.Nodup → createStocksLoop rows ids = some (ss, rem) →
      ∀ x, x ∈ rem ↔ (x ∈ ids ∧ x ∉ ss.map StockUpdate.offer_id) := by
  intro rows
  induction rows with
  | nil =>
    intro ids ss rem hnd h
    simp only [createStocksLoop, Option.some.injEq, Prod.mk.injEq] at h
    rw [← h.1, ← h.2]
    simp
  | cons w rest ih =>
    intro ids ss rem hnd h
    by_cases hm : w.kod ∈ ids
    · rw [createStocksLoop, if_pos hm] at h
      cases hb : bucketCount w.kolichestvo with
      | none => rw [hb] at h; cases h
      | some st =>
        rw [hb] at h
        cases hrec : createStocksLoop rest (ids.erase w.kod) with
        | none => rw [hrec] at h; cases h
        | some p =>
          obtain ⟨ss2, rem2⟩ := p
          rw [hrec] at h
          simp only [Option.some.injEq, Prod.mk.injEq] at h
          rw [← h.1, ← h.2]
          intro x
          have hih := ih (ids.erase w.kod) ss2 rem2 (hnd.erase w.kod) hrec x
          rw [hih, hnd.mem_erase_iff]
          simp only [List.map_cons, List.mem_cons]
          constructor
          · rintro ⟨⟨hne, hin⟩, hnotin⟩
            exact ⟨hin, fun hc => hc.elim hne hnotin⟩
          · rintro ⟨hin, hnotin⟩
            exact ⟨⟨fun hc => hnotin (Or.inl hc), hin⟩, fun hc => hnotin (Or.inr hc)⟩
    · rw [createStocksLoop, if_neg hm] at h
      exact ih ids ss rem hnd h

theorem createPricesLoop_snd :
    ∀ (rows : List Watch) (ids : List String), (createPricesLoop rows ids).2 = ids := by
  intro rows
  induction rows with
  | nil => intro ids; rfl
  | cons w rest ih =>
    intro ids
    by_cases hm : w.kod ∈ ids
    · rw [createPricesLoop, if_pos hm]
      exact ih ids
    · rw [createPricesLoop, if_neg hm]
      exact ih ids

theorem divide_ok_length_le {α : Type} (lst : List α) (n : Nat) (bs : List (List α))
    (h : divide lst n = Except.ok bs) : ∀ b ∈ bs, b.length ≤ n := by
  by_cases hn : n = 0
  · subst hn
    rw [divide, if_pos rfl] at h
    cases h
  · rw [divide, if_neg hn] at h
    cases h
    exact chunksGo_length_le n hn lst

theorem chunksGo_of_length_le {α : Type} (n : Nat) (hn : n ≠ 0) (lst : List α)
    (hne : lst ≠ []) (hle : lst.length ≤ n) : chunksGo n lst = [lst] := by
  rw [chunksGo_cons hne hn, List.take_of_length_le hle, List.drop_eq_nil_of_le hle,
    chunksGo_nil]

theorem createPricesLoop_replicate (w : Watch) (ids : List String) (hm : w.kod ∈ ids) :
    ∀ k, (createPricesLoop (List.replicate k w) ids).1 =
      List.replicate k ⟨"UNKNOWN", "RUB", w.kod, "0", price_conversion w.tsena⟩ := by
  intro k
  induction k with
  | zero => rfl
  | succ k ih =>
    rw [List.replicate_succ, createPricesLoop, if_pos hm, List.replicate_succ, ← ih]

theorem createStocksLoop_rem_no_row_code :
    ∀ (rows : List Watch) (ids : List String) (ss : List StockUpdate) (rem : List String),
      ids.Nodup → createStocksLoop rows ids = some (ss, rem) →
      ∀ w ∈ rows, w.kod ∉ rem := by
  intro rows
  induction rows with
  | nil =>
    intro ids ss rem hnd h w hw
    simp at hw
  | cons w rest ih =>
    intro ids ss rem hnd h w2 hw2
    by_cases hm : w.kod ∈ ids
    · rw [createStocksLoop, if_pos hm] at h
      cases hb : bucketCount w.kolichestvo with
      | none => rw [hb] at h; cases h
      | some st =>
        rw [hb] at h
        cases hrec : createStocksLoop rest (ids.erase w.kod) with
        | none => rw [hrec] at h; cases h
        | some p =>
          obtain ⟨ss2, rem2⟩ := p
          rw [hrec] at h
          simp only [Option.some.injEq, Prod.mk.injEq] at h
          rcases List.mem_cons.mp hw2 with hw2 | hw2
          · subst hw2
            intro hc
            rw [← h.2] at hc
            have hsub := createStocksLoop_rem_sublist rest (ids.erase w2.kod) ss2 rem2 hrec
            exact (hnd.mem_erase_iff.mp (hsub.mem hc)).1 rfl
          · intro hc
            rw [← h.2] at hc
            exact ih (ids.erase w.kod) ss2 rem2 (hnd.erase w.kod) hrec w2 hw2 hc
    · rw [createStocksLoop, if_neg hm] at h
      rcases List.mem_cons.mp hw2 with hw2 | hw2
      · subst hw2
        intro hc
        exact hm ((createStocksLoop_rem_sublist rest ids ss rem h).mem hc)
      · exact ih ids ss rem hnd h w2 hw2

theorem createPricesLoop_nil_of_disjoint :
    ∀ (rows : List Watch) (ids : List String),
      (∀ w ∈ rows, w.kod ∉ ids) → (createPricesLoop rows ids).1 = [] := by
  intro rows
  induction rows with
  | nil => intro ids _; rfl
  | cons w rest ih =>
    intro ids hdis
    rw [createPricesLoop, if_neg (hdis w (List.mem_cons_self w rest))]
    exact ih ids (fun w2 hw2 => hdis w2 (List.mem_cons_of_mem w hw2))

/-- Replacement of the `updatedAt` field of a market stock entry by the empty
string: the entry with its build timestamp forgotten. -/
def stripDate (e : MarketStock) : MarketStock :=
  ⟨e.sku, e.warehouseId, e.count, e.itemType, ""⟩

theorem marketStocksLoop_date_eq (wid d1 d2 : String) :
    ∀ (rows : List Watch) (ids : List String),
      (marketStocksLoop wid d1 rows ids).map (fun p => (p.1.map stripDate, p.2)) =
      (marketStocksLoop wid d2 rows ids).map (fun p => (p.1.map stripDate, p.2)) := by
  intro rows
  induction rows with
  | nil => intro ids; rfl
  | cons w rest ih =>
    intro ids
    by_cases hm : w.kod ∈ ids
    · rw [marketStocksLoop, marketStocksLoop, if_pos hm, if_pos hm]
      cases hb : bucketCount w.kolichestvo with
      | none => rfl
      | some st =>
        have hih := ih (ids.erase w.kod)
        cases hr1 : marketStocksLoop wid d1 rest (ids.erase w.kod) with
        | none =>
          rw [hr1] at hih
          cases hr2 : marketStocksLoop wid d2 rest (ids.erase w.kod) with
          | none => rfl
          | some p2 => rw [hr2] at hih; cases hih
        | some p1 =>
          rw [hr1] at hih
          cases hr2 : marketStocksLoop wid d2 rest (ids.erase w.kod) with
          | none => rw [hr2] at hih; cases hih
          | some p2 =>
            rw [hr2] at hih
            simp only [Option.map_some', Option.some.injEq, Prod.mk.injEq] at hih
            simp only [Option.map_some', Option.some.injEq, Prod.mk.injEq,
              List.map_cons]
            exact ⟨by rw [hih.1]; rfl, hih.2⟩
    · rw [marketStocksLoop, marketStocksLoop, if_neg hm, if_neg hm]
      exact ih ids

theorem bucketCount_cases (q : String) (v : Int) (h : bucketCount q = some v) :
    (q = ">10" ∧ v = 100) ∨ (q = "1" ∧ v = 0) ∨
    (q ≠ ">10" ∧ q ≠ "1" ∧ pyInt q = some v) := by
  by_cases h1 : q = ">10"
  · rw [bucketCount, if_pos h1] at h
    injection h with h
    exact Or.inl ⟨h1, h.symm⟩
  · by_cases h2 : q = "1"
    · rw [bucketCount, if_neg h1, if_pos h2] at h
      injection h with h
      exact Or.inr (Or.inl ⟨h2, h.symm⟩)
    · rw [bucketCount, if_neg h1, if_neg h2] at h
      exact Or.inr (Or.inr ⟨h1, h2, h⟩)

/-- Claim C9 (amended): the stock payload `market.create_stocks` builds is the
same function of the supplier rows and the known offer identifiers for every
clock reading — two runs with the same feed and the same offer set produce
batches that agree except in the `updatedAt` timestamp field, which records
each run's own build time. -/
theorem market_create_stocks_date_independent (rows : List Watch)
    (ids : List String) (wid d1 d2 : String) :
    (market_create_stocks rows ids wid d1).map (fun p => (p.1.map stripDate, p.2)) =
    (market_create_stocks rows ids wid d2).map (fun p => (p.1.map stripDate, p.2)) := by
  have h := marketStocksLoop_date_eq wid d1 d2 rows ids
  rw [market_create_stocks, market_create_stocks]
  cases hr1 : marketStocksLoop wid d1 rows ids with
  | none =>
    rw [hr1] at h
    cases hr2 : marketStocksLoop wid d2 rows ids with
    | none => rfl
    | some p2 => rw [hr2] at h; cases h
  | some p1 =>
    rw [hr1] at h
    cases hr2 : marketStocksLoop wid d2 rows ids with
    | none => rw [hr2] at h; cases h
    | some p2 =>
      rw [hr2] at h
      simp only [Option.map_some', Option.some.injEq, Prod.mk.injEq] at h
      simp only [Option.map_some', Option.some.injEq, Prod.mk.injEq,
        List.map_append, List.map_map]
      refine ⟨?_, h.2⟩
      rw [h.1, h.2]
      rfl

/-- Counterexample to claim C9 as stated: with the same empty feed and the
same offer set, two runs of `market.create_stocks` whose `utcnow` readings
differ produce different (not byte-identical) stock payloads. -/
theorem market_create_stocks_clock_cex :
    market_create_stocks [] ["A"] "w" "2024-01-01T00:00:00Z" ≠
    market_create_stocks [] ["A"] "w" "2024-01-02T00:00:00Z" := by decide

/-- Claim C1: for a feed `rows` and distinct known offer identifiers `ids`,
a successful `create_stocks` returns every known identifier exactly once —
the matched rows first, in supplier-feed order and with their bucketed
quantity, followed by the unmatched identifiers with quantity 0 in their
original listing order. -/
theorem create_stocks_exact_cover (rows : List Watch) (ids : List String)
    (stocks : List StockUpdate) (rem : List String)
    (hnd : ids.Nodup) (h : create_stocks rows ids = some (stocks, rem)) :
    (∀ i ∈ ids, (stocks.map StockUpdate.offer_id).count i = 1) ∧
    (∀ e ∈ stocks, e.offer_id ∈ ids) ∧
    ∃ matched, createStocksLoop rows ids = some (matched, rem) ∧
      stocks = matched ++ rem.map (fun i => ⟨i, 0⟩) ∧
      List.Sublist (matched.map StockUpdate.offer_id) (rows.map Watch.kod) ∧
      (∀ e ∈ matched, ∃ w ∈ rows, e.offer_id = w.kod ∧
        bucketCount w.kolichestvo = some e.stock) ∧
      List.Sublist rem ids := by
  rw [create_stocks] at h
  cases hrec : createStocksLoop rows ids with
  | none => rw [hrec] at h; cases h
  | some p =>
    obtain ⟨ss, rem2⟩ := p
    rw [hrec] at h
    simp only [Option.some.injEq, Prod.mk.injEq] at h
    obtain ⟨hstocks, hrem⟩ := h
    subst hrem
    subst hstocks
    have hmap : ((ss ++ rem2.map fun i => (⟨i, 0⟩ : StockUpdate)).map
        StockUpdate.offer_id) = ss.map StockUpdate.offer_id ++ rem2 := by
      rw [List.map_append, List.map_map]
      congr 1
      exact List.map_id rem2
    have hperm : (((ss ++ rem2.map fun i => (⟨i, 0⟩ : StockUpdate)).map
        StockUpdate.offer_id)).Perm ids := by
      rw [hmap]
      exact createStocksLoop_perm rows ids ss rem2 hrec
    refine ⟨?_, ?_, ss, rfl, rfl, createStocksLoop_matched_sublist rows ids ss rem2 hrec,
      createStocksLoop_matched_spec rows ids ss rem2 hrec,
      createStocksLoop_rem_sublist rows ids ss rem2 hrec⟩
    · intro i hi
      rw [hperm.count_eq i]
      exact List.count_eq_one_of_mem hnd hi
    · intro e he
      exact hperm.mem_iff.mp (List.mem_map_of_mem StockUpdate.offer_id he)

/-- Witness for claim C1 at the spec's own test vector: one row `A` with
quantity `>10`, known identifiers `A` and `B`. -/
theorem create_stocks_exact_cover_witness :
    (∀ i ∈ (["A", "B"] : List String),
      (([⟨"A", 100⟩, ⟨"B", 0⟩] : List StockUpdate).map StockUpdate.offer_id).count i = 1) ∧
    (∀ e ∈ ([⟨"A", 100⟩, ⟨"B", 0⟩] : List StockUpdate),
      e.offer_id ∈ (["A", "B"] : List String)) ∧
    ∃ matched, createStocksLoop [⟨"A", ">10", "100"⟩] ["A", "B"] = some (matched, ["B"]) ∧
      ([⟨"A", 100⟩, ⟨"B", 0⟩] : List StockUpdate) =
        matched ++ (["B"] : List String).map (fun i => ⟨i, 0⟩) ∧
      List.Sublist (matched.map StockUpdate.offer_id)
        (([⟨"A", ">10", "100"⟩] : List Watch).map Watch.kod) ∧
      (∀ e ∈ matched, ∃ w ∈ ([⟨"A", ">10", "100"⟩] : List Watch), e.offer_id = w.kod ∧
        bucketCount w.kolichestvo = some e.stock) ∧
      List.Sublist ["B"] ["A", "B"] :=
  create_stocks_exact_cover [⟨"A", ">10", "100"⟩] ["A", "B"]
    [⟨"A", 100⟩, ⟨"B", 0⟩] ["B"] (by decide) (by decide)

/-- Counterexample to claim C10 as stated: when `offer_ids` contains a
duplicate (`["A", "A"]`), `list.remove` deletes only the first occurrence, so
after `create_stocks` returns, `offer_ids` still contains `"A"` even though
`"A"` matched the supplier row — the final collection is not "exactly the
identifiers that matched no supplier row". -/
theorem create_stocks_frame_cex :
    ∃ matched rem, createStocksLoop [⟨"A", "2", "0"⟩] ["A", "A"] = some (matched, rem) ∧
      "A" ∈ matched.map StockUpdate.offer_id ∧ "A" ∈ rem :=
  ⟨[⟨"A", 2⟩], ["A"], by decide, by decide, by decide⟩

/-- Claim C10 (amended): for DISTINCT `offer_ids`, after `create_stocks`
returns, the final `offer_ids` list contains exactly the identifiers that
matched no supplier row, in their original relative order, while
`create_prices` leaves `offer_ids` unchanged. -/
theorem create_stocks_offer_ids_frame (rows : List Watch) (ids : List String)
    (stocks : List StockUpdate) (rem : List String)
    (hnd : ids.Nodup) (h : create_stocks rows ids = some (stocks, rem)) :
    List.Sublist rem ids ∧
    (∃ matched, createStocksLoop rows ids = some (matched, rem) ∧
      ∀ x, x ∈ rem ↔ (x ∈ ids ∧ x ∉ matched.map StockUpdate.offer_id)) ∧
    (createPricesLoop rows ids).2 = ids := by
  rw [create_stocks] at h
  cases hrec : createStocksLoop rows ids with
  | none => rw [hrec] at h; cases h
  | some p =>
    obtain ⟨ss, rem2⟩ := p
    rw [hrec] at h
    simp only [Option.some.injEq, Prod.mk.injEq] at h
    obtain ⟨hstocks, hrem⟩ := h
    subst hrem
    exact ⟨createStocksLoop_rem_sublist rows ids ss rem2 hrec,
      ⟨ss, rfl, createStocksLoop_rem_mem rows ids ss rem2 hnd hrec⟩,
      createPricesLoop_snd rows ids⟩

/-- Witness for the amended claim C10: rows `[A]`, known identifiers
`[A, B]`; identifier `B` matched nothing and is the whole remainder. -/
theorem create_stocks_offer_ids_frame_witness :
    List.Sublist ["B"] ["A", "B"] ∧
    (∃ matched, createStocksLoop [⟨"A", "2", "100"⟩] ["A", "B"] = some (matched, ["B"]) ∧
      ∀ x, x ∈ (["B"] : List String) ↔
        (x ∈ (["A", "B"] : List String) ∧ x ∉ matched.map StockUpdate.offer_id)) ∧
    (createPricesLoop [⟨"A", "2", "100"⟩] ["A", "B"]).2 = ["A", "B"] :=
  create_stocks_offer_ids_frame [⟨"A", "2", "100"⟩] ["A", "B"]
    [⟨"A", 2⟩, ⟨"B", 0⟩] ["B"] (by decide) (by decide)

/-- Counterexample to claim C4 as stated: a supplier row whose quantity
string is `"-3"` is matched and bucketed to the literal parse `-3`, a
negative stock value — the claim's "resulting quantity is a non-negative
integer for every matched row" fails. -/
theorem create_stocks_negative_stock_cex :
    create_stocks [⟨"A", "-3", "0"⟩] ["A"] = some ([⟨"A", -3⟩], []) ∧
    (⟨"A", -3⟩ : StockUpdate).stock < 0 :=
  ⟨by decide, by decide⟩

/-- Claim C4 (amended): every entry of a successful `create_stocks` result
either is a zero-fill entry or comes from a matched row bucketed by the rule
`">10" ↦ 100`, `"1" ↦ 0`, otherwise the literal `int(...)` parse; the result
is non-negative for every entry provided each row's quantity string parses
to a non-negative integer when it is neither `">10"` nor `"1"`. -/
theorem create_stocks_bucketing (rows : List Watch) (ids : List String)
    (stocks : List StockUpdate) (rem : List String)
    (h : create_stocks rows ids = some (stocks, rem)) :
    (∀ e ∈ stocks,
      e.stock = 0 ∨
      ∃ w ∈ rows, e.offer_id = w.kod ∧
        ((w.kolichestvo = ">10" ∧ e.stock = 100) ∨
         (w.kolichestvo = "1" ∧ e.stock = 0) ∨
         (w.kolichestvo ≠ ">10" ∧ w.kolichestvo ≠ "1" ∧
           pyInt w.kolichestvo = some e.stock))) ∧
    ((∀ w ∈ rows, ∀ k, pyInt w.kolichestvo = some k → 0 ≤ k) →
      ∀ e ∈ stocks, 0 ≤ e.stock) := by
  rw [create_stocks] at h
  cases hrec : createStocksLoop rows ids with
  | none => rw [hrec] at h; cases h
  | some p =>
    obtain ⟨ss, rem2⟩ := p
    rw [hrec] at h
    simp only [Option.some.injEq, Prod.mk.injEq] at h
    obtain ⟨hstocks, hrem⟩ := h
    subst hrem
    subst hstocks
    have hspec := createStocksLoop_matched_spec rows ids ss rem2 hrec
    constructor
    · intro e he
      rcases List.mem_append.mp he with he | he
      · obtain ⟨w, hw, h1, h2⟩ := hspec e he
        exact Or.inr ⟨w, hw, h1, bucketCount_cases w.kolichestvo e.stock h2⟩
      · obtain ⟨i, _, hi⟩ := List.mem_map.mp he
        rw [← hi]
        exact Or.inl rfl
    · intro hq e he
      rcases List.mem_append.mp he with he | he
      · obtain ⟨w, hw, _, h2⟩ := hspec e he
        rcases bucketCount_cases w.kolichestvo e.stock h2 with ⟨_, hv⟩ | ⟨_, hv⟩ | ⟨_, _, hv⟩
        · rw [hv]; decide
        · rw [hv]
        · exact hq w hw e.stock hv
      · obtain ⟨i, _, hi⟩ := List.mem_map.mp he
        rw [← hi]

/-- Witness for the amended claim C4: rows with quantities `>10`, `1` and
`7`, all matched; the bucketed stocks are `100`, `0`, `7`, all
non-negative. -/
theorem create_stocks_bucketing_witness :
    (∀ e ∈ ([⟨"A", 100⟩, ⟨"B", 0⟩, ⟨"C", 7⟩] : List StockUpdate),
      e.stock = 0 ∨
      ∃ w ∈ ([⟨"A", ">10", "1"⟩, ⟨"B", "1", "2"⟩, ⟨"C", "7", "3"⟩] : List Watch),
        e.offer_id = w.kod ∧
        ((w.kolichestvo = ">10" ∧ e.stock = 100) ∨
         (w.kolichestvo = "1" ∧ e.stock = 0) ∨
         (w.kolichestvo ≠ ">10" ∧ w.kolichestvo ≠ "1" ∧
           pyInt w.kolichestvo = some e.stock))) ∧
    ((∀ w ∈ ([⟨"A", ">10", "1"⟩, ⟨"B", "1", "2"⟩, ⟨"C", "7", "3"⟩] : List Watch),
        ∀ k, pyInt w.kolichestvo = some k → 0 ≤ k) →
      ∀ e ∈ ([⟨"A", 100⟩, ⟨"B", 0⟩, ⟨"C", 7⟩] : List StockUpdate), 0 ≤ e.stock) :=
  create_stocks_bucketing [⟨"A", ">10", "1"⟩, ⟨"B", "1", "2"⟩, ⟨"C", "7", "3"⟩]
    ["A", "B", "C"] [⟨"A", 100⟩, ⟨"B", 0⟩, ⟨"C", 7⟩] [] (by decide)

/-- Claim C2 (code bug): in `seller.main`, `create_prices` runs on the
`offer_ids` list that `create_stocks` has already emptied of every matched
identifier, so the price list the orchestrator pushes is empty whenever the
stock step succeeded (for distinct identifiers) — although the same row and
a fresh listing (as `seller.upload_prices` fetches) produce the expected
price entry. -/
theorem seller_main_prices_empty :
    (seller_main_pipeline [⟨"A", "2", "100"⟩] ["A"] = some ([⟨"A", 2⟩], []) ∧
     (createPricesLoop [⟨"A", "2", "100"⟩] ["A"]).1 =
       [⟨"UNKNOWN", "RUB", "A", "0", "100"⟩]) ∧
    (∀ rows ids stocks prices, ids.Nodup →
      seller_main_pipeline rows ids = some (stocks, prices) → prices = []) := by
  refine ⟨⟨by decide, by decide⟩, ?_⟩
  intro rows ids stocks prices hnd h
  rw [seller_main_pipeline] at h
  cases hcs : create_stocks rows ids with
  | none => rw [hcs] at h; cases h
  | some p =>
    obtain ⟨stocks2, rem⟩ := p
    rw [hcs] at h
    simp only [Option.some.injEq, Prod.mk.injEq] at h
    rw [← h.2]
    rw [create_stocks] at hcs
    cases hrec : createStocksLoop rows ids with
    | none => rw [hrec] at hcs; cases hcs
    | some q =>
      obtain ⟨ss, rem2⟩ := q
      rw [hrec] at hcs
      simp only [Option.some.injEq, Prod.mk.injEq] at hcs
      rw [← hcs.2]
      exact createPricesLoop_nil_of_disjoint rows rem2
        (fun w hw => createStocksLoop_rem_no_row_code rows ids ss rem2 hnd hrec w hw)

/-- Witness for the universally quantified part of the claim C2 theorem at
the concrete failing input. -/
theorem seller_main_prices_empty_witness : ([] : List OzonPrice) = [] :=
  seller_main_prices_empty.2 [⟨"A", "2", "100"⟩] ["A"] [⟨"A", 2⟩] []
    (by decide) (by decide)

/-- Counterexample to claim C7 as stated: `seller.upload_prices` chunks the
price list by 1000, not 900 (source line 402), so a feed of 1000 rows
matching one known identifier produces a single batch of 1000 PriceUpdates —
more than the claimed 900-per-call limit for the Ozon price path. -/
theorem seller_upload_prices_batch_over_900 :
    ∃ bs, seller_upload_prices_batches
        (List.replicate 1000 ⟨"A", "2", "100"⟩) ["A"] = Except.ok bs ∧
      ∃ b ∈ bs, 900 < b.length := by
  rw [seller_upload_prices_batches,
    createPricesLoop_replicate ⟨"A", "2", "100"⟩ ["A"] (by decide) 1000,
    divide, if_neg (by norm_num),
    chunksGo_of_length_le 1000 (by norm_num) _
      (List.ne_nil_of_length_pos (by rw [List.length_replicate]; norm_num))
      (by rw [List.length_replicate])]
  exact ⟨_, rfl, _, List.mem_singleton.mpr rfl, by rw [List.length_replicate]; norm_num⟩

/-- Claim C7 (amended): every batch passed to a single push call is bounded
by the chunk size of its upload path — 100 StockUpdates in `seller.main` and
`seller.upload_stocks`, 900 PriceUpdates in `seller.main`, 1000 (not 900)
PriceUpdates in `seller.upload_prices`, 2000 StockUpdates in `market.main`
and `market.upload_stocks`, 500 PriceUpdates in `market.upload_prices`. -/
theorem upload_batch_limits :
    (∀ rows ids out, seller_main_stock_batches rows ids = some out →
      ∀ bs, out = Except.ok bs → ∀ b ∈ bs, b.length ≤ 100) ∧
    (∀ rows ids out, seller_main_price_batches rows ids = some out →
      ∀ bs, out = Except.ok bs → ∀ b ∈ bs, b.length ≤ 900) ∧
    (∀ rows ids out, seller_upload_stocks_batches rows ids = some out →
      ∀ bs, out = Except.ok bs → ∀ b ∈ bs, b.length ≤ 100) ∧
    (∀ rows ids bs, seller_upload_prices_batches rows ids = Except.ok bs →
      ∀ b ∈ bs, b.length ≤ 1000) ∧
    (∀ rows ids wid date out, market_upload_stocks_batches rows ids wid date = some out →
      ∀ bs, out = Except.ok bs → ∀ b ∈ bs, b.length ≤ 2000) ∧
    (∀ rows ids out, market_upload_prices_batches rows ids = some out →
      ∀ bs, out = Except.ok bs → ∀ b ∈ bs, b.length ≤ 500) := by
  refine ⟨?_, ?_, ?_, ?_, ?_, ?_⟩
  · intro rows ids out hout bs hbs
    obtain ⟨p, _, hf⟩ := Option.map_eq_some'.mp hout
    exact divide_ok_length_le p.1 100 bs (by rw [hf, hbs])
  · intro rows ids out hout bs hbs
    obtain ⟨p, _, hf⟩ := Option.map_eq_some'.mp hout
    exact divide_ok_length_le (createPricesLoop rows p.2).1 900 bs (by rw [hf, hbs])
  · intro rows ids out hout bs hbs
    obtain ⟨p, _, hf⟩ := Option.map_eq_some'.mp hout
    exact divide_ok_length_le p.1 100 bs (by rw [hf, hbs])
  · intro rows ids bs h
    exact divide_ok_length_le (createPricesLoop rows ids).1 1000 bs h
  · intro rows ids wid date out hout bs hbs
    obtain ⟨p, _, hf⟩ := Option.map_eq_some'.mp hout
    exact divide_ok_length_le p.1 2000 bs (by rw [hf, hbs])
  · intro rows ids out hout bs hbs
    obtain ⟨ps, _, hf⟩ := Option.map_eq_some'.mp hout
    exact divide_ok_length_le ps 500 bs (by rw [hf, hbs])

/-- Witness for the amended claim C7, applying the `seller.upload_prices`
component at a one-row input whose single batch has length 1. -/
theorem upload_batch_limits_witness :
    ∀ b ∈ [[(⟨"UNKNOWN", "RUB", "A", "0", "100"⟩ : OzonPrice)]], b.length ≤ 1000 :=
  upload_batch_limits.2.2.2.1 [⟨"A", "2", "100"⟩] ["A"]
    [[⟨"UNKNOWN", "RUB", "A", "0", "100"⟩]]
    (by
      rw [seller_upload_prices_batches]
      have h1 : (createPricesLoop [⟨"A", "2", "100"⟩] ["A"]).1 =
          [⟨"UNKNOWN", "RUB", "A", "0", "100"⟩] := by decide
      rw [h1, divide, if_neg (by norm_num),
        chunksGo_of_length_le 1000 (by norm_num) _ (by decide) (by decide)])

/-- Claim C8 (code bug): in `market.main`, a `ReadTimeout` raised while
fetching the FBS campaign's offer identifiers is caught, but execution jumps
to the `except` clause and the DBS campaign is never attempted — contradicting
both the claim and `market.main`'s own docstring ("продолжает работу с
остальными кампаниями"); moreover `download_stock()` runs outside the `try`
block, so a supplier-feed download failure escapes `main` uncaught. -/
theorem market_main_error_handling_cex :
    market_main envFbsTimeout "wf" "wd" "d" =
      ⟨none, some PyError.readTimeout, false⟩ ∧
    market_main envDownloadFail "wf" "wd" "d" =
      ⟨some PyError.connectionError, none, false⟩ :=
  ⟨rfl, rfl⟩
